import Mathlib

/-!
Shallow embedding of the FinderItem C component
(`Sources/CComponent/source.c`, `Sources/CComponent/Include/Header.h`).

The C component has two functions:

* `cmp(const FTSENT **l, const FTSENT **r)` — reads the two `fts_name`
  fields, creates `CFString`s from them with `kCFStringEncodingUTF8`,
  and returns `CFStringCompareWithOptionsAndLocale(lhs, rhs,
  CFRangeMake(0, strlen(lhs)), kCFCompareNumerically |
  kCFCompareWidthInsensitive, nil)`.
* `fts_cmp_open(char * const * path, int options)` — returns
  `fts_open(path, options, cmp)`.

Names are modelled as lists of bytes (`List Nat`, each element < 256,
the bytes of the NUL-terminated C string without the terminator), and
decoded Unicode strings as lists of code points (`List Nat`).

The CoreFoundation collation itself is not part of this repository, so
its numeric-aware width-insensitive comparison is modelled from the
specification (section 4.1): fold width variants, split a name into
alternating non-digit and digit runs, compare non-digit runs by code
point, digit runs by numeric value with the textual length as tie
break, left to right, first difference deciding.
-/

namespace FinderItem

/-- Is the (width-folded) code point an ASCII decimal digit. -/
def isDigit (c : Nat) : Bool := decide (0x30 ≤ c ∧ c ≤ 0x39)

/-- Modelled from the spec: width folding used by
`kCFCompareWidthInsensitive`.  A full-width form (U+FF01 – U+FF5E) is
mapped to its half-width counterpart, the ideographic space U+3000 to
the ASCII space. -/
def widthFold (c : Nat) : Nat :=
  if 0xFF01 ≤ c ∧ c ≤ 0xFF5E then c - 0xFEE0
  else if c = 0x3000 then 0x20 else c

/-- A token of the natural-order comparison: a digit run (numeric value
together with its textual length) or a maximal non-digit run. -/
inductive NToken : Type where
  | num (val : Nat) (len : Nat) : NToken
  | text (run : List Nat) : NToken

/-- Prepend one code point to a token list, merging it into the first
token when both are of the same kind. -/
def pushTok (c : Nat) : List NToken → List NToken
  | .num v l :: ts =>
      if isDigit c then .num ((c - 0x30) * 10 ^ l + v) (l + 1) :: ts
      else .text [c] :: .num v l :: ts
  | .text s :: ts =>
      if isDigit c then .num (c - 0x30) 1 :: .text s :: ts
      else .text (c :: s) :: ts
  | [] =>
      if isDigit c then [.num (c - 0x30) 1] else [.text [c]]

/-- Split a (width-folded) code point list into alternating digit and
non-digit runs. -/
def tokenize (l : List Nat) : List NToken := l.foldr pushTok []

/-- Three-way comparison on naturals. -/
def natCmp (a b : Nat) : Ordering :=
  if a < b then .lt else if b < a then .gt else .eq

/-- Lexicographic three-way comparison of lists, a strict prefix being
smaller. -/
def lexCmp (f : α → α → Ordering) : List α → List α → Ordering
  | [], [] => .eq
  | [], _ :: _ => .lt
  | _ :: _, [] => .gt
  | x :: xs, y :: ys => (f x y).then (lexCmp f xs ys)

/-- Compare two tokens: digit runs by numeric value, then textual
length; non-digit runs by code point; a digit run before a non-digit
run. -/
def tokCmp : NToken → NToken → Ordering
  | .num v₁ l₁, .num v₂ l₂ => (natCmp v₁ v₂).then (natCmp l₁ l₂)
  | .num _ _, .text _ => .lt
  | .text _, .num _ _ => .gt
  | .text s, .text t => lexCmp natCmp s t

/-- The sort key of a decoded name: width-fold every code point, then
split into runs. -/
def natKey (l : List Nat) : List NToken := tokenize (l.map widthFold)

/-- Modelled from the spec: the comparison performed by
`CFStringCompareWithOptionsAndLocale` under `kCFCompareNumerically |
kCFCompareWidthInsensitive` on two decoded code point sequences. -/
def naturalOrdering (l r : List Nat) : Ordering :=
  lexCmp tokCmp (natKey l) (natKey r)

/-- Decimal value of a digit run. -/
def digitsVal : List Nat → Nat
  | [] => 0
  | c :: cs => (c - 0x30) * 10 ^ cs.length + digitsVal cs

/-- A three-way comparison that is reflexive and transitive in each of
the ways a lexicographic composition needs. -/
structure LawfulCmp (f : α → α → Ordering) : Prop where
  refl : ∀ a, f a a = .eq
  lt_trans : ∀ {a b c}, f a b = .lt → f b c = .lt → f a c = .lt
  lt_of_lt_of_eq : ∀ {a b c}, f a b = .lt → f b c = .eq → f a c = .lt
  lt_of_eq_of_lt : ∀ {a b c}, f a b = .eq → f b c = .lt → f a c = .lt
  eq_trans : ∀ {a b c}, f a b = .eq → f b c = .eq → f a c = .eq

/-- `CFComparisonResult` as an integer: -1, 0 or 1. -/
def orderingToInt : Ordering → Int
  | .lt => -1
  | .eq => 0
  | .gt => 1

/-- Decode one UTF-8 sequence whose leading byte is `b` and whose
following bytes start `bs`: the code point and the number of
continuation bytes consumed, or `none` if the sequence is invalid
(bad leading or continuation byte, overlong form, surrogate, or a code
point beyond U+10FFFF). -/
def utf8Step (b : Nat) (bs : List Nat) : Option (Nat × Nat) :=
  if b ≤ 0x7F then some (b, 0)
  else if 0xC2 ≤ b ∧ b ≤ 0xDF then
    match bs with
    | b₁ :: _ =>
      if 0x80 ≤ b₁ ∧ b₁ ≤ 0xBF then some ((b - 0xC0) * 0x40 + (b₁ - 0x80), 1)
      else none
    | [] => none
  else if 0xE0 ≤ b ∧ b ≤ 0xEF then
    match bs with
    | b₁ :: b₂ :: _ =>
      if (0x80 ≤ b₁ ∧ b₁ ≤ 0xBF) ∧ (0x80 ≤ b₂ ∧ b₂ ≤ 0xBF) then
        let cp := (b - 0xE0) * 0x1000 + (b₁ - 0x80) * 0x40 + (b₂ - 0x80)
        if 0x800 ≤ cp ∧ ¬ (0xD800 ≤ cp ∧ cp ≤ 0xDFFF) then some (cp, 2)
        else none
      else none
    | _ => none
  else if 0xF0 ≤ b ∧ b ≤ 0xF4 then
    match bs with
    | b₁ :: b₂ :: b₃ :: _ =>
      if (0x80 ≤ b₁ ∧ b₁ ≤ 0xBF) ∧ (0x80 ≤ b₂ ∧ b₂ ≤ 0xBF) ∧ (0x80 ≤ b₃ ∧ b₃ ≤ 0xBF) then
        let cp := (b - 0xF0) * 0x40000 + (b₁ - 0x80) * 0x1000 + (b₂ - 0x80) * 0x40 + (b₃ - 0x80)
        if 0x10000 ≤ cp ∧ cp ≤ 0x10FFFF then some (cp, 3)
        else none
      else none
    | _ => none
  else none

/-- Fuel-indexed decoding loop; the fuel only serves to make the
recursion structural, `utf8Decode` supplies enough for the whole
input. -/
def utf8DecodeAux : Nat → List Nat → Option (List Nat)
  | _, [] => some []
  | 0, _ :: _ => none
  | fuel + 1, b :: bs =>
    match utf8Step b bs with
    | none => none
    | some (cp, k) => (utf8DecodeAux fuel (bs.drop k)).map (fun r => cp :: r)

/-- Strict UTF-8 decoding of a byte list into code points, `none` on
any invalid sequence.  Models `CFStringCreateWithCString` with
`kCFStringEncodingUTF8`, which returns NULL for invalid input. -/
def utf8Decode (l : List Nat) : Option (List Nat) := utf8DecodeAux l.length l

/-- Length of a code point sequence in UTF-16 code units: what
`CFStringGetLength` reports for the created string. -/
def utf16Length (cps : List Nat) : Nat :=
  cps.foldr (fun c n => (if 0x10000 ≤ c then 2 else 1) + n) 0

/-- The body of the C function `cmp` on the two name byte strings.
`CFStringCreateWithCString` yields NULL on invalid UTF-8, and the code
then passes NULL on to `CFStringCompareWithOptionsAndLocale` and
`CFRelease`, whose behaviour on NULL is undefined (modelled `none`).
The code also passes `CFRangeMake(0, strlen(lhs))` — the BYTE length of
the left name — as a range measured in UTF-16 code units of the left
string; when the byte length exceeds the UTF-16 length the range is out
of bounds and the comparison is undefined (modelled `none`). -/
def cmpNames (l r : List Nat) : Option Int :=
  match utf8Decode l, utf8Decode r with
  | some lc, some rc =>
      if l.length ≤ utf16Length lc then
        some (orderingToInt (naturalOrdering lc rc))
      else none
  | _, _ => none

/-- The fields of an `FTSENT` record that the model tracks; `cmp` reads
only `fts_name`. -/
structure FTSENT : Type where
  fts_name : List Nat
  fts_path : List Nat
  fts_info : Nat
  fts_level : Int

/-- The C comparator `cmp` at the `FTSENT` level (source.c lines
13 – 26).  It dereferences the two entries and compares their
`fts_name` fields. -/
def cmp (l r : FTSENT) : Option Int := cmpNames l.fts_name r.fts_name

/-- Ambient process state that a locale-sensitive comparison could have
read.  The C code passes a nil locale to
`CFStringCompareWithOptionsAndLocale`, so the comparison never consults
this state; `cmpInEnv` makes that explicit. -/
structure ProcessEnv : Type where
  localeId : Nat

/-- The comparator as invoked in a process with ambient environment
`env`: the nil locale argument means the result does not read `env`. -/
def cmpInEnv (_env : ProcessEnv) (l r : FTSENT) : Option Int := cmp l r

/-- Failures of the traversal opener (section 7 of the spec). -/
inductive FTSError : Type where
  | InvalidArgument : FTSError
  | OpenFailed (errno : Nat) : FTSError

/-- The ambient file system, as far as opening roots is concerned:
`openRoot p` is `none` when the root path `p` can be opened and
`some errno` when opening it fails with the given system error code. -/
structure FileSystem : Type where
  openRoot : List Nat → Option Nat

/-- An open traversal handle: the roots, the option bit set and the
sibling-ordering callback it was constructed with. -/
structure FTS : Type where
  roots : List (List Nat)
  options : Nat
  compar : FTSENT → FTSENT → Option Int

/-- Modelled from the spec: the platform constructor `fts_open`, which
is not part of this repository.  Per sections 4.2 and 7 it rejects an
empty root list with `InvalidArgument` before acquiring any resource,
signals `OpenFailed` with the underlying errno when a root cannot be
opened (holding no resources), and otherwise returns a handle holding
the given roots, options and comparator, with the root resources held.
The second component of the result is the list of file-system
resources still held after the call. -/
def fts_open (fs : FileSystem) (paths : List (List Nat)) (options : Nat)
    (compar : FTSENT → FTSENT → Option Int) :
    Except FTSError FTS × List (List Nat) :=
  if paths.isEmpty then (.error .InvalidArgument, [])
  else
    match paths.findSome? fs.openRoot with
    | some e => (.error (.OpenFailed e), [])
    | none => (.ok { roots := paths, options := options, compar := compar }, paths)

/-- The C function `fts_cmp_open` (source.c lines 28 – 30): it returns
`fts_open(path, options, cmp)`. -/
def fts_cmp_open (fs : FileSystem) (paths : List (List Nat)) (options : Nat) :
    Except FTSError FTS × List (List Nat) :=
  fts_open fs paths options cmp

end FinderItem

namespace FinderItem

theorem ordEqThen (o : Ordering) : Ordering.eq.then o = o := rfl

theorem ordThenEq (o : Ordering) : o.then Ordering.eq = o := by cases o <;> rfl

theorem natCmp_eq_lt {a b : Nat} : natCmp a b = .lt ↔ a < b := by
  unfold natCmp
  split
  · simp_all
  · split <;> simp_all

theorem natCmp_eq_eq {a b : Nat} : natCmp a b = .eq ↔ a = b := by
  unfold natCmp
  split
  · simp_all; omega
  · split <;> simp_all <;> omega

theorem natCmp_eq_gt {a b : Nat} : natCmp a b = .gt ↔ b < a := by
  unfold natCmp
  split
  · simp_all; omega
  · split <;> simp_all

theorem natCmp_add_left (a b c : Nat) : natCmp (a + b) (a + c) = natCmp b c := by
  simp [natCmp, Nat.add_lt_add_iff_left]

theorem lawful_natCmp : LawfulCmp natCmp := {
  refl := fun a => natCmp_eq_eq.2 rfl
  lt_trans := fun h₁ h₂ => natCmp_eq_lt.2 (Nat.lt_trans (natCmp_eq_lt.1 h₁) (natCmp_eq_lt.1 h₂))
  lt_of_lt_of_eq := fun h₁ h₂ => by
    rw [natCmp_eq_eq.1 h₂] at h₁; exact h₁
  lt_of_eq_of_lt := fun h₁ h₂ => by
    rw [natCmp_eq_eq.1 h₁]; exact h₂
  eq_trans := fun h₁ h₂ => by
    rw [natCmp_eq_eq.1 h₁]; exact h₂ }

theorem lexCmp_nil_left {f : α → α → Ordering} {ys : List α} (h : ys ≠ []) :
    lexCmp f [] ys = .lt := by
  cases ys with
  | nil => exact absurd rfl h
  | cons y ys => rfl

theorem lawful_lexCmp {f : α → α → Ordering} (hf : LawfulCmp f) : LawfulCmp (lexCmp f) := {
  refl := fun a => by
    induction a with
    | nil => rfl
    | cons x xs ih => simpa [lexCmp, hf.refl x, ordEqThen] using ih
  lt_trans := by
    intro a
    induction a with
    | nil =>
      intro b c h₁ h₂
      cases b with
      | nil => exact absurd h₁ (by simp [lexCmp])
      | cons y ys =>
        cases c with
        | nil => exact absurd h₂ (by simp [lexCmp])
        | cons z zs => rfl
    | cons x xs ih =>
      intro b c h₁ h₂
      cases b with
      | nil => exact absurd h₁ (by simp [lexCmp])
      | cons y ys =>
        cases c with
        | nil => exact absurd h₂ (by simp [lexCmp])
        | cons z zs =>
          simp only [lexCmp, Ordering.then_eq_lt] at h₁ h₂ ⊢
          rcases h₁ with h₁ | ⟨h₁, h₁'⟩ <;> rcases h₂ with h₂ | ⟨h₂, h₂'⟩
          · exact .inl (hf.lt_trans h₁ h₂)
          · exact .inl (hf.lt_of_lt_of_eq h₁ h₂)
          · exact .inl (hf.lt_of_eq_of_lt h₁ h₂)
          · exact .inr ⟨hf.eq_trans h₁ h₂, ih h₁' h₂'⟩
  lt_of_lt_of_eq := by
    intro a
    induction a with
    | nil =>
      intro b c h₁ h₂
      cases b with
      | nil => exact absurd h₁ (by simp [lexCmp])
      | cons y ys =>
        cases c with
        | nil => exact absurd h₂ (by simp [lexCmp])
        | cons z zs => rfl
    | cons x xs ih =>
      intro b c h₁ h₂
      cases b with
      | nil => exact absurd h₁ (by simp [lexCmp])
      | cons y ys =>
        cases c with
        | nil => exact absurd h₂ (by simp [lexCmp])
        | cons z zs =>
          simp only [lexCmp, Ordering.then_eq_lt] at h₁ ⊢
          simp only [lexCmp, Ordering.then_eq_eq] at h₂
          rcases h₁ with h₁ | ⟨h₁, h₁'⟩
          · exact .inl (hf.lt_of_lt_of_eq h₁ h₂.1)
          · exact .inr ⟨hf.eq_trans h₁ h₂.1, ih h₁' h₂.2⟩
  lt_of_eq_of_lt := by
    intro a
    induction a with
    | nil =>
      intro b c h₁ h₂
      cases b with
      | nil =>
        cases c with
        | nil => exact absurd h₂ (by simp [lexCmp])
        | cons z zs => rfl
      | cons y ys => exact absurd h₁ (by simp [lexCmp])
    | cons x xs ih =>
      intro b c h₁ h₂
      cases b with
      | nil => exact absurd h₁ (by simp [lexCmp])
      | cons y ys =>
        cases c with
        | nil => exact absurd h₂ (by simp [lexCmp])
        | cons z zs =>
          simp only [lexCmp, Ordering.then_eq_eq] at h₁
          simp only [lexCmp, Ordering.then_eq_lt] at h₂ ⊢
          rcases h₂ with h₂ | ⟨h₂, h₂'⟩
          · exact .inl (hf.lt_of_eq_of_lt h₁.1 h₂)
          · exact .inr ⟨hf.eq_trans h₁.1 h₂, ih h₁.2 h₂'⟩
  eq_trans := by
    intro a
    induction a with
    | nil =>
      intro b c h₁ h₂
      cases b with
      | nil => exact h₂
      | cons y ys => exact absurd h₁ (by simp [lexCmp])
    | cons x xs ih =>
      intro b c h₁ h₂
      cases b with
      | nil => exact absurd h₁ (by simp [lexCmp])
      | cons y ys =>
        cases c with
        | nil => exact absurd h₂ (by simp [lexCmp])
        | cons z zs =>
          simp only [lexCmp, Ordering.then_eq_eq] at h₁ h₂ ⊢
          exact ⟨hf.eq_trans h₁.1 h₂.1, ih h₁.2 h₂.2⟩ }

theorem lawful_tokCmp : LawfulCmp tokCmp := {
  refl := fun t => by
    cases t with
    | num v l => simp [tokCmp, lawful_natCmp.refl, Ordering.then_eq_eq]
    | text s => exact (lawful_lexCmp lawful_natCmp).refl s
  lt_trans := by
    intro a b c h₁ h₂
    cases a with
    | num v₁ l₁ =>
      cases c with
      | num v₃ l₃ =>
        cases b with
        | num v₂ l₂ =>
          simp only [tokCmp, Ordering.then_eq_lt] at h₁ h₂ ⊢
          rcases h₁ with h₁ | ⟨h₁, h₁'⟩ <;> rcases h₂ with h₂ | ⟨h₂, h₂'⟩
          · exact .inl (lawful_natCmp.lt_trans h₁ h₂)
          · exact .inl (lawful_natCmp.lt_of_lt_of_eq h₁ h₂)
          · exact .inl (lawful_natCmp.lt_of_eq_of_lt h₁ h₂)
          · exact .inr ⟨lawful_natCmp.eq_trans h₁ h₂, lawful_natCmp.lt_trans h₁' h₂'⟩
        | text s => simp [tokCmp] at h₂
      | text t => rfl
    | text s =>
      cases b with
      | num v₂ l₂ => simp [tokCmp] at h₁
      | text t =>
        cases c with
        | num v₃ l₃ => simp [tokCmp] at h₂
        | text u =>
          simp only [tokCmp] at h₁ h₂ ⊢
          exact (lawful_lexCmp lawful_natCmp).lt_trans h₁ h₂
  lt_of_lt_of_eq := by
    intro a b c h₁ h₂
    cases b with
    | num v₂ l₂ =>
      cases c with
      | num v₃ l₃ =>
        cases a with
        | num v₁ l₁ =>
          simp only [tokCmp, Ordering.then_eq_lt, Ordering.then_eq_eq] at h₁ h₂ ⊢
          rcases h₁ with h₁ | ⟨h₁, h₁'⟩
          · exact .inl (lawful_natCmp.lt_of_lt_of_eq h₁ h₂.1)
          · exact .inr ⟨lawful_natCmp.eq_trans h₁ h₂.1, lawful_natCmp.lt_of_lt_of_eq h₁' h₂.2⟩
        | text s => simp [tokCmp] at h₁
      | text t => simp [tokCmp] at h₂
    | text s =>
      cases c with
      | num v₃ l₃ => simp [tokCmp] at h₂
      | text t =>
        cases a with
        | num v₁ l₁ => rfl
        | text u =>
          simp only [tokCmp, Ordering.then_eq_eq] at h₁ h₂ ⊢
          exact (lawful_lexCmp lawful_natCmp).lt_of_lt_of_eq h₁ h₂
  lt_of_eq_of_lt := by
    intro a b c h₁ h₂
    cases b with
    | num v₂ l₂ =>
      cases a with
      | num v₁ l₁ =>
        cases c with
        | num v₃ l₃ =>
          simp only [tokCmp, Ordering.then_eq_lt, Ordering.then_eq_eq] at h₁ h₂ ⊢
          rcases h₂ with h₂ | ⟨h₂, h₂'⟩
          · exact .inl (lawful_natCmp.lt_of_eq_of_lt h₁.1 h₂)
          · exact .inr ⟨lawful_natCmp.eq_trans h₁.1 h₂, lawful_natCmp.lt_of_eq_of_lt h₁.2 h₂'⟩
        | text t => rfl
      | text s => simp [tokCmp] at h₁
    | text s =>
      cases a with
      | num v₁ l₁ => simp [tokCmp] at h₁
      | text u =>
        cases c with
        | num v₃ l₃ => simp [tokCmp] at h₂
        | text t =>
          simp only [tokCmp] at h₁ h₂ ⊢
          exact (lawful_lexCmp lawful_natCmp).lt_of_eq_of_lt h₁ h₂
  eq_trans := by
    intro a b c h₁ h₂
    cases b with
    | num v₂ l₂ =>
      cases a with
      | num v₁ l₁ =>
        cases c with
        | num v₃ l₃ =>
          simp only [tokCmp, Ordering.then_eq_eq] at h₁ h₂ ⊢
          exact ⟨lawful_natCmp.eq_trans h₁.1 h₂.1, lawful_natCmp.eq_trans h₁.2 h₂.2⟩
        | text t => simp [tokCmp] at h₂
      | text s => simp [tokCmp] at h₁
    | text s =>
      cases a with
      | num v₁ l₁ => simp [tokCmp] at h₁
      | text u =>
        cases c with
        | num v₃ l₃ => simp [tokCmp] at h₂
        | text t =>
          simp only [tokCmp] at h₁ h₂ ⊢
          exact (lawful_lexCmp lawful_natCmp).eq_trans h₁ h₂ }

theorem naturalOrdering_refl (l : List Nat) : naturalOrdering l l = .eq :=
  (lawful_lexCmp lawful_tokCmp).refl (natKey l)

theorem naturalOrdering_lt_trans {a b c : List Nat} (h₁ : naturalOrdering a b = .lt)
    (h₂ : naturalOrdering b c = .lt) : naturalOrdering a c = .lt :=
  (lawful_lexCmp lawful_tokCmp).lt_trans h₁ h₂

theorem orderingToInt_neg {o : Ordering} : orderingToInt o < 0 ↔ o = .lt := by
  cases o <;> decide

theorem widthFold_ascii {c : Nat} (h : c ≤ 0x7F) : widthFold c = c := by
  unfold widthFold
  rw [if_neg (by omega), if_neg (by omega)]

theorem map_widthFold_ascii {l : List Nat} (h : ∀ c ∈ l, c ≤ 0x7F) :
    l.map widthFold = l := by
  induction l with
  | nil => rfl
  | cons x xs ih =>
    simp only [List.map_cons]
    rw [widthFold_ascii (h x (by simp)), ih (fun c hc => h c (by simp [hc]))]

theorem utf8Decode_ascii {l : List Nat} (h : ∀ c ∈ l, c ≤ 0x7F) :
    utf8Decode l = some l := by
  induction l with
  | nil => rfl
  | cons b bs ih =>
    have hb : b ≤ 0x7F := h b (by simp)
    have ih' := ih (fun c hc => h c (by simp [hc]))
    have hstep : utf8Step b bs = some (b, 0) := by
      unfold utf8Step; rw [if_pos hb]
    show utf8DecodeAux (b :: bs).length (b :: bs) = some (b :: bs)
    simp only [List.length_cons, utf8DecodeAux, hstep, List.drop_zero]
    rw [show utf8DecodeAux bs.length bs = utf8Decode bs from rfl, ih']
    rfl

theorem utf16Length_ascii {l : List Nat} (h : ∀ c ∈ l, c ≤ 0x7F) :
    utf16Length l = l.length := by
  induction l with
  | nil => rfl
  | cons b bs ih =>
    have hb : b ≤ 0x7F := h b (by simp)
    have ih' := ih (fun c hc => h c (by simp [hc]))
    simp only [utf16Length, List.foldr_cons, List.length_cons] at ih' ⊢
    rw [if_neg (by omega), ih']
    omega

theorem isDigit_le {c : Nat} (h : isDigit c = true) : 0x30 ≤ c ∧ c ≤ 0x39 := by
  simpa [isDigit] using h

theorem utf8Decode_ne_nil {b : Nat} {bs cs : List Nat}
    (h : utf8Decode (b :: bs) = some cs) : cs ≠ [] := by
  rw [show utf8Decode (b :: bs) = utf8DecodeAux (bs.length + 1) (b :: bs) from rfl] at h
  rw [utf8DecodeAux] at h
  cases hstep : utf8Step b bs with
  | none => rw [hstep] at h; simp at h
  | some v =>
    rw [hstep] at h
    rcases Option.map_eq_some'.1 h with ⟨r, _, hr⟩
    rw [← hr]
    simp

theorem pushTok_ne_nil (c : Nat) (ts : List NToken) : pushTok c ts ≠ [] := by
  cases ts with
  | nil => simp only [pushTok]; split <;> simp
  | cons t ts => cases t <;> simp only [pushTok] <;> split <;> simp

theorem tokenize_ne_nil {l : List Nat} (h : l ≠ []) : tokenize l ≠ [] := by
  cases l with
  | nil => exact absurd rfl h
  | cons x xs => exact pushTok_ne_nil x (tokenize xs)

theorem pushTok_append {c : Nat} {ts acc : List NToken} (h : ts ≠ []) :
    pushTok c (ts ++ acc) = pushTok c ts ++ acc := by
  cases ts with
  | nil => exact absurd rfl h
  | cons t ts =>
    cases t with
    | num v l => simp only [List.cons_append, pushTok]; split <;> simp
    | text s => simp only [List.cons_append, pushTok]; split <;> simp

theorem foldr_pushTok_append : ∀ (pre : List Nat) (acc : List NToken),
    (∀ c, pre.getLast? = some c → pushTok c acc = pushTok c [] ++ acc) →
    List.foldr pushTok acc pre = tokenize pre ++ acc := by
  intro pre
  induction pre with
  | nil => intro acc h; simp [tokenize]
  | cons x xs ih =>
    intro acc h
    cases xs with
    | nil => simpa [tokenize] using h x (by simp)
    | cons y ys =>
      have hlast : ∀ c, (y :: ys).getLast? = some c → pushTok c acc = pushTok c [] ++ acc := by
        intro c hc
        exact h c (by rwa [List.getLast?_cons_cons])
      calc List.foldr pushTok acc (x :: y :: ys)
          = pushTok x (List.foldr pushTok acc (y :: ys)) := rfl
        _ = pushTok x (tokenize (y :: ys) ++ acc) := by rw [ih acc hlast]
        _ = pushTok x (tokenize (y :: ys)) ++ acc := pushTok_append (tokenize_ne_nil (by simp))
        _ = tokenize (x :: y :: ys) ++ acc := rfl

theorem tokenize_digits {d : List Nat} (hd : ∀ c ∈ d, isDigit c = true) (hne : d ≠ []) :
    tokenize d = [.num (digitsVal d) d.length] := by
  induction d with
  | nil => exact absurd rfl hne
  | cons c cs ih =>
    have hc : isDigit c = true := hd c (by simp)
    cases cs with
    | nil => simp [tokenize, pushTok, hc, digitsVal]
    | cons c₂ cs₂ =>
      have ih2 := ih (fun x hx => hd x (by simp [hx])) (by simp)
      show pushTok c (tokenize (c₂ :: cs₂)) = _
      rw [ih2]
      simp [pushTok, hc, digitsVal]

theorem tokenize_append_digits {pre d : List Nat}
    (hd : ∀ c ∈ d, isDigit c = true) (hdne : d ≠ [])
    (hlast : ∀ c, pre.getLast? = some c → isDigit c = false) :
    tokenize (pre ++ d) = tokenize pre ++ [.num (digitsVal d) d.length] := by
  have htd := tokenize_digits hd hdne
  have hstep : tokenize (pre ++ d) = List.foldr pushTok (tokenize d) pre := by
    simp [tokenize, List.foldr_append]
  rw [hstep, htd]
  refine foldr_pushTok_append pre _ ?_
  intro c hc
  have hcd : isDigit c = false := hlast c hc
  simp [pushTok, hcd]

theorem lexCmp_append_left {f : α → α → Ordering} (hf : LawfulCmp f)
    (xs ys zs : List α) : lexCmp f (xs ++ ys) (xs ++ zs) = lexCmp f ys zs := by
  induction xs with
  | nil => rfl
  | cons x xs ih =>
    simp only [List.cons_append, lexCmp, hf.refl x, ordEqThen]
    exact ih

theorem cmpNames_ascii {l r : List Nat} (hl : ∀ c ∈ l, c ≤ 0x7F)
    (hr : ∀ c ∈ r, c ≤ 0x7F) :
    cmpNames l r = some (orderingToInt (lexCmp tokCmp (tokenize l) (tokenize r))) := by
  unfold cmpNames
  rw [utf8Decode_ascii hl, utf8Decode_ascii hr]
  show (if l.length ≤ utf16Length l then some (orderingToInt (naturalOrdering l r)) else none) = _
  rw [utf16Length_ascii hl, if_pos (le_refl _)]
  unfold naturalOrdering natKey
  rw [map_widthFold_ascii hl, map_widthFold_ascii hr]

theorem cmpNames_some_inv {l r : List Nat} {x : Int} (h : cmpNames l r = some x) :
    ∃ lc rc, utf8Decode l = some lc ∧ utf8Decode r = some rc ∧
      l.length ≤ utf16Length lc ∧ x = orderingToInt (naturalOrdering lc rc) := by
  unfold cmpNames at h
  cases hdl : utf8Decode l with
  | none => rw [hdl] at h; simp at h
  | some lc =>
    cases hdr : utf8Decode r with
    | none => rw [hdl, hdr] at h; simp at h
    | some rc =>
      rw [hdl, hdr] at h
      simp only at h
      by_cases hlen : l.length ≤ utf16Length lc
      · rw [if_pos hlen] at h
        exact ⟨lc, rc, rfl, rfl, hlen, (Option.some_inj.1 h).symm⟩
      · rw [if_neg hlen] at h
        simp at h

theorem digitsVal_lt {d : List Nat} (hd : ∀ c ∈ d, isDigit c = true) :
    digitsVal d < 10 ^ d.length := by
  induction d with
  | nil => simp [digitsVal]
  | cons c cs ih =>
    have h1 : c - 0x30 ≤ 9 := by
      have := isDigit_le (hd c (by simp)); omega
    have h2 : digitsVal cs < 10 ^ cs.length := ih (fun x hx => hd x (by simp [hx]))
    simp only [digitsVal, List.length_cons]
    calc (c - 0x30) * 10 ^ cs.length + digitsVal cs
        < (c - 0x30) * 10 ^ cs.length + 10 ^ cs.length := by omega
      _ = (c - 0x30 + 1) * 10 ^ cs.length := by ring
      _ ≤ 10 * 10 ^ cs.length := Nat.mul_le_mul_right _ (by omega)
      _ = 10 ^ (cs.length + 1) := by ring

theorem digitsVal_ge {c : Nat} {cs : List Nat} (h : 0x31 ≤ c) :
    10 ^ cs.length ≤ digitsVal (c :: cs) := by
  simp only [digitsVal]
  calc 10 ^ cs.length = 1 * 10 ^ cs.length := by ring
    _ ≤ (c - 0x30) * 10 ^ cs.length := Nat.mul_le_mul_right _ (by omega)
    _ ≤ (c - 0x30) * 10 ^ cs.length + digitsVal cs := Nat.le_add_right _ _

theorem digitsVal_head_lt {c c₂ : Nat} {cs cs₂ : List Nat}
    (hcs : ∀ x ∈ cs, isDigit x = true) (hlen : cs.length = cs₂.length)
    (hc : 0x30 ≤ c) (hlt : c < c₂) :
    digitsVal (c :: cs) < digitsVal (c₂ :: cs₂) := by
  simp only [digitsVal, hlen]
  have h2 : digitsVal cs < 10 ^ cs₂.length := hlen ▸ digitsVal_lt hcs
  calc (c - 0x30) * 10 ^ cs₂.length + digitsVal cs
      < (c - 0x30) * 10 ^ cs₂.length + 10 ^ cs₂.length := by omega
    _ = (c - 0x30 + 1) * 10 ^ cs₂.length := by ring
    _ ≤ (c₂ - 0x30) * 10 ^ cs₂.length := Nat.mul_le_mul_right _ (by omega)
    _ ≤ (c₂ - 0x30) * 10 ^ cs₂.length + digitsVal cs₂ := Nat.le_add_right _ _

theorem digitsVal_lex {d e : List Nat} (hd : ∀ c ∈ d, isDigit c = true)
    (he : ∀ c ∈ e, isDigit c = true) (hlen : d.length = e.length) :
    natCmp (digitsVal d) (digitsVal e) = lexCmp natCmp d e := by
  induction d generalizing e with
  | nil =>
    cases e with
    | nil => decide
    | cons c₂ cs₂ => simp at hlen
  | cons c cs ih =>
    cases e with
    | nil => simp at hlen
    | cons c₂ cs₂ =>
      have hlen2 : cs.length = cs₂.length := by simpa using hlen
      have hcd := isDigit_le (hd c (by simp))
      have hcd₂ := isDigit_le (he c₂ (by simp))
      have hcs : ∀ x ∈ cs, isDigit x = true := fun x hx => hd x (by simp [hx])
      have hcs₂ : ∀ x ∈ cs₂, isDigit x = true := fun x hx => he x (by simp [hx])
      show natCmp (digitsVal (c :: cs)) (digitsVal (c₂ :: cs₂)) =
        (natCmp c c₂).then (lexCmp natCmp cs cs₂)
      rcases Nat.lt_trichotomy c c₂ with hlt | heq | hgt
      · rw [natCmp_eq_lt.2 hlt]
        exact natCmp_eq_lt.2 (digitsVal_head_lt hcs hlen2 hcd.1 hlt)
      · subst heq
        rw [lawful_natCmp.refl c, ordEqThen]
        simp only [digitsVal, hlen2]
        rw [natCmp_add_left]
        exact ih hcs hcs₂ hlen2
      · rw [natCmp_eq_gt.2 hgt]
        exact natCmp_eq_gt.2 (digitsVal_head_lt hcs₂ hlen2.symm hcd₂.1 hgt)

theorem digit_ascii {d : List Nat} (hd : ∀ c ∈ d, isDigit c = true) :
    ∀ c ∈ d, c ≤ 0x7F := by
  intro c hc
  have := isDigit_le (hd c hc); omega

theorem cmpNames_runs {pre d e : List Nat}
    (hpre : ∀ c ∈ pre, c ≤ 0x7F)
    (hd : ∀ c ∈ d, isDigit c = true) (he : ∀ c ∈ e, isDigit c = true)
    (hdne : d ≠ []) (hene : e ≠ [])
    (hlast : ∀ c, pre.getLast? = some c → isDigit c = false) :
    cmpNames (pre ++ d) (pre ++ e) =
      some (orderingToInt ((natCmp (digitsVal d) (digitsVal e)).then
        (natCmp d.length e.length))) := by
  have hl : ∀ c ∈ pre ++ d, c ≤ 0x7F := by
    intro c hc
    rcases List.mem_append.1 hc with h | h
    exacts [hpre c h, digit_ascii hd c h]
  have hr : ∀ c ∈ pre ++ e, c ≤ 0x7F := by
    intro c hc
    rcases List.mem_append.1 hc with h | h
    exacts [hpre c h, digit_ascii he c h]
  rw [cmpNames_ascii hl hr,
    tokenize_append_digits hd hdne hlast,
    tokenize_append_digits he hene hlast,
    lexCmp_append_left lawful_tokCmp]
  simp only [lexCmp, tokCmp, ordThenEq]

theorem singleton_last_nondigit {a : Nat} (h : isDigit a = false) :
    ∀ c, ([a] : List Nat).getLast? = some c → isDigit c = false := by
  intro c hc
  have : c = a := by simpa using hc.symm
  rwa [this]

/-- Claim C1: for every path list and every options value, `fts_cmp_open`
constructs the underlying hierarchical iterator over exactly the given
roots with exactly the supplied options, passing `cmp` as the
sibling-ordering callback: `fts_cmp_open(paths, options) =
fts_open(paths, options, cmp)`. -/
theorem fts_cmp_open_delegates (fs : FileSystem) (paths : List (List Nat))
    (options : Nat) :
    fts_cmp_open fs paths options = fts_open fs paths options cmp := rfl

/-- Claim C2: the comparator is numeric-aware.  The name "file2" compares
below "file10", and in general two names made of a common prefix whose
last character is not a digit, followed by digit runs, are ordered by the
numeric value of those runs. -/
theorem cmp_numeric_aware :
    cmpNames [0x66, 0x69, 0x6C, 0x65, 0x32]
      [0x66, 0x69, 0x6C, 0x65, 0x31, 0x30] = some (-1) ∧
    ∀ pre d e : List Nat, (∀ c ∈ pre, c ≤ 0x7F) →
      (∀ c ∈ d, isDigit c = true) → (∀ c ∈ e, isDigit c = true) →
      d ≠ [] → e ≠ [] → (∀ c, pre.getLast? = some c → isDigit c = false) →
      digitsVal d < digitsVal e →
      cmpNames (pre ++ d) (pre ++ e) = some (-1) := by
  refine ⟨by decide, ?_⟩
  intro pre d e hpre hd he hdne hene hlast hv
  rw [cmpNames_runs hpre hd he hdne hene hlast, natCmp_eq_lt.2 hv]
  rfl

theorem cmp_numeric_aware_witness :
    cmpNames ([0x61] ++ [0x32]) ([0x61] ++ [0x31, 0x30]) = some (-1) :=
  cmp_numeric_aware.2 [0x61] [0x32] [0x31, 0x30] (by decide) (by decide)
    (by decide) (by decide) (by decide)
    (singleton_last_nondigit (by decide)) (by decide)

/-- Claim C3 (code bug): the comparison is NOT width-insensitive as
implemented, because `cmp` passes `CFRangeMake(0, strlen(lhs))` — the
byte length of the left name — where
`CFStringCompareWithOptionsAndLocale` expects a range in UTF-16 code
units of the left string.  For the full-width name "ｆｉｌｅ１" (15
UTF-8 bytes, 5 UTF-16 units) the range is out of bounds and the
behaviour is undefined (modelled `none`), whereas with the ASCII name
on the left the comparison is defined and does return equality. -/
theorem cmp_width_insensitive_bug :
    cmpNames [0xEF, 0xBD, 0x86, 0xEF, 0xBD, 0x89, 0xEF, 0xBD, 0x8C,
        0xEF, 0xBD, 0x85, 0xEF, 0xBC, 0x91]
      [0x66, 0x69, 0x6C, 0x65, 0x31] = none ∧
    cmpNames [0x66, 0x69, 0x6C, 0x65, 0x31]
      [0xEF, 0xBD, 0x86, 0xEF, 0xBD, 0x89, 0xEF, 0xBD, 0x8C,
        0xEF, 0xBD, 0x85, 0xEF, 0xBC, 0x91] = some 0 :=
  ⟨by decide, by decide⟩

/-- Claim C4 counterexample: as stated, the claim requires
`cmp(A, A) = 0` for EVERY name `A`; for the invalid-UTF-8 name `0xFF`
the comparator does not return 0 (it has no defined result at all). -/
theorem cmp_swo_cex : cmpNames [0xFF] [0xFF] ≠ some 0 := by decide

/-- Claim C4 (amended): on the names where the comparison is defined,
`cmp` is a strict weak ordering: whenever `cmp A B` and `cmp B C` are
both defined and negative, `cmp A C` is defined and negative; and
whenever a name decodes as UTF-8 and its byte length fits the UTF-16
range (so that `cmp` is defined on it), `cmp A A = 0`. -/
theorem cmp_strict_weak_order :
    (∀ A B C : List Nat, ∀ x y : Int, cmpNames A B = some x → x < 0 →
      cmpNames B C = some y → y < 0 → cmpNames A C = some (-1)) ∧
    (∀ A ac : List Nat, utf8Decode A = some ac → A.length ≤ utf16Length ac →
      cmpNames A A = some 0) := by
  constructor
  · intro A B C x y hab hx hbc hy
    rcases cmpNames_some_inv hab with ⟨ac, bc, hA, hB, hlen, hxval⟩
    rcases cmpNames_some_inv hbc with ⟨bc₂, cc, hB₂, hC, _, hyval⟩
    have hbceq : bc = bc₂ := Option.some_inj.1 (hB.symm.trans hB₂)
    subst hbceq
    rw [hxval] at hx
    rw [hyval] at hy
    have h₃ := naturalOrdering_lt_trans (orderingToInt_neg.1 hx) (orderingToInt_neg.1 hy)
    unfold cmpNames
    rw [hA, hC]
    show (if A.length ≤ utf16Length ac then
      some (orderingToInt (naturalOrdering ac cc)) else none) = some (-1)
    rw [if_pos hlen, h₃]
    rfl
  · intro A ac hA hlen
    unfold cmpNames
    rw [hA]
    show (if A.length ≤ utf16Length ac then
      some (orderingToInt (naturalOrdering ac ac)) else none) = some 0
    rw [if_pos hlen, naturalOrdering_refl]
    rfl

theorem cmp_strict_weak_order_witness :
    cmpNames [0x61] [0x63] = some (-1) ∧ cmpNames [0x62] [0x62] = some 0 :=
  ⟨cmp_strict_weak_order.1 [0x61] [0x62] [0x63] (-1) (-1) (by decide)
      (by decide) (by decide) (by decide),
    cmp_strict_weak_order.2 [0x62] [0x62] (by decide) (by decide)⟩

/-- Claim C5 (code bug): `cmp` is not total on names that are not valid
UTF-8 and has no byte-wise fallback.  `CFStringCreateWithCString`
returns NULL for the invalid byte `0xFF`; the code then hands NULL to
`CFStringCompareWithOptionsAndLocale` and `CFRelease`, whose behaviour
on NULL is undefined (a crash), modelled `none` — not a byte-wise
comparison result. -/
theorem cmp_invalid_utf8_undefined :
    cmpNames [0xFF] [0x61] = none ∧ cmpNames [0x61] [0xFF] = none ∧
      utf8Decode [0xFF] = none :=
  ⟨by decide, by decide, by decide⟩

/-- Claim C6: opening a traversal with an empty root list fails with
`InvalidArgument`, holding no resource, and does so before consulting
the file system at all (the result does not depend on it). -/
theorem fts_cmp_open_empty (fs fs₂ : FileSystem) (options : Nat) :
    fts_cmp_open fs [] options = (.error .InvalidArgument, []) ∧
    fts_cmp_open fs [] options = fts_cmp_open fs₂ [] options :=
  ⟨rfl, rfl⟩

/-- Claim C7: whenever some root cannot be opened (the file system
reports error code `e` for the first failing root), `fts_cmp_open`
signals `OpenFailed e`, returns no handle and holds no file-system
resources. -/
theorem fts_cmp_open_openFailed (fs : FileSystem) (paths : List (List Nat))
    (options : Nat) (e : Nat) (h : paths.findSome? fs.openRoot = some e) :
    fts_cmp_open fs paths options = (.error (.OpenFailed e), []) := by
  have hne : ¬ paths.isEmpty = true := by
    intro hp
    rw [List.isEmpty_iff.1 hp] at h
    simp [List.findSome?] at h
  unfold fts_cmp_open fts_open
  rw [if_neg hne, h]

theorem fts_cmp_open_openFailed_witness :
    fts_cmp_open ⟨fun p => if p = [0x2F] then some 2 else none⟩ [[0x2F]] 0 =
      (.error (.OpenFailed 2), []) :=
  fts_cmp_open_openFailed _ _ _ _ (by decide)

/-- Claim C8 counterexample: as stated, the claim requires
`cmp("", N) < 0` for EVERY non-empty name `N`; for the invalid-UTF-8
name `0xFF` the comparator returns no (negative) result at all. -/
theorem cmp_empty_least_cex : ¬ ∃ z : Int, cmpNames [] [0xFF] = some z ∧ z < 0 := by
  rintro ⟨z, hz, _⟩
  rw [show cmpNames [] [0xFF] = none from by decide] at hz
  exact absurd hz (by simp)

/-- Claim C8 (amended): the empty name compares equal to the empty name,
and strictly below every non-empty name that decodes as UTF-8. -/
theorem cmp_empty_least :
    cmpNames [] [] = some 0 ∧
    ∀ N nc : List Nat, N ≠ [] → utf8Decode N = some nc →
      cmpNames [] N = some (-1) := by
  refine ⟨by decide, ?_⟩
  intro N nc hne hdec
  unfold cmpNames
  rw [show utf8Decode [] = some [] from rfl, hdec]
  show (if ([] : List Nat).length ≤ utf16Length [] then
    some (orderingToInt (naturalOrdering [] nc)) else none) = some (-1)
  rw [if_pos (by decide)]
  have hnc : nc ≠ [] := by
    cases N with
    | nil => exact absurd rfl hne
    | cons b bs => exact utf8Decode_ne_nil hdec
  have hmap : nc.map widthFold ≠ [] := by simpa using hnc
  have hlt : naturalOrdering [] nc = .lt := by
    unfold naturalOrdering natKey
    exact lexCmp_nil_left (tokenize_ne_nil hmap)
  rw [hlt]
  rfl

theorem cmp_empty_least_witness : cmpNames [] [0x61] = some (-1) :=
  cmp_empty_least.2 [0x61] [0x61] (by decide) (by decide)

/-- Claim C9 counterexample: as stated, the claim predicts that of two
digit runs too long for a fixed-width integer the LONGER one always
sorts after.  With a leading zero this is false: the 21-character run
018446744073709551616 (value 2^64, which overflows a 64-bit integer)
sorts BEFORE the 20-character run 99999999999999999999, because the
runs are compared by numeric value, not by raw textual length. -/
theorem cmp_digit_length_cex :
    ¬ ∃ z : Int, 0 < z ∧
      cmpNames (0x61 :: 0x30 :: [0x31, 0x38, 0x34, 0x34, 0x36, 0x37, 0x34,
          0x34, 0x30, 0x37, 0x33, 0x37, 0x30, 0x39, 0x35, 0x35, 0x31, 0x36,
          0x31, 0x36])
        (0x61 :: [0x39, 0x39, 0x39, 0x39, 0x39, 0x39, 0x39, 0x39, 0x39, 0x39,
          0x39, 0x39, 0x39, 0x39, 0x39, 0x39, 0x39, 0x39, 0x39, 0x39]) =
        some z := by
  rintro ⟨z, hz, heq⟩
  have hval : some z = some (-1 : Int) := by rw [← heq]; decide
  have : z = -1 := Option.some_inj.1 hval
  omega

/-- Claim C9 (amended): digit runs of any length — in particular runs
too long for a fixed-width integer — are compared without overflow by
numeric value; for runs WITHOUT leading zeros this coincides with
comparing by textual length first (the longer run sorts after) and
lexicographically on equal lengths. -/
theorem cmp_digit_runs_length :
    ∀ pre d e : List Nat, (∀ c ∈ pre, c ≤ 0x7F) →
      (∀ c ∈ d, isDigit c = true) → (∀ c ∈ e, isDigit c = true) →
      d ≠ [] → e ≠ [] → (∀ c, pre.getLast? = some c → isDigit c = false) →
      (d.head? = some 0x30 → d.length = 1) →
      (e.head? = some 0x30 → e.length = 1) →
      ((d.length < e.length → cmpNames (pre ++ d) (pre ++ e) = some (-1)) ∧
       (d.length = e.length →
         cmpNames (pre ++ d) (pre ++ e) =
           some (orderingToInt (lexCmp natCmp d e)))) := by
  intro pre d e hpre hd he hdne hene hlast _ hlz₂
  constructor
  · intro hlen
    have hv : digitsVal d < digitsVal e := by
      cases e with
      | nil => exact absurd rfl hene
      | cons c₂ cs₂ =>
        have hdl : 1 ≤ d.length := by
          cases d with
          | nil => exact absurd rfl hdne
          | cons _ _ => simp
        have hel : 1 ≤ cs₂.length := by
          simp only [List.length_cons] at hlen
          omega
        have hc₂ : 0x31 ≤ c₂ := by
          have hdig := isDigit_le (he c₂ (by simp))
          rcases Nat.eq_or_lt_of_le hdig.1 with heq | hlt
          · exfalso
            have hlen1 : (c₂ :: cs₂).length = 1 := hlz₂ (by simp [← heq])
            simp only [List.length_cons] at hlen1
            omega
          · omega
        have hd10 : d.length ≤ cs₂.length := by
          simp only [List.length_cons] at hlen
          omega
        calc digitsVal d < 10 ^ d.length := digitsVal_lt hd
          _ ≤ 10 ^ cs₂.length := Nat.pow_le_pow_right (by omega) hd10
          _ ≤ digitsVal (c₂ :: cs₂) := digitsVal_ge hc₂
    rw [cmpNames_runs hpre hd he hdne hene hlast, natCmp_eq_lt.2 hv]
    rfl
  · intro hlen
    rw [cmpNames_runs hpre hd he hdne hene hlast, digitsVal_lex hd he hlen,
      hlen, lawful_natCmp.refl, ordThenEq]

theorem cmp_digit_runs_length_witness :
    cmpNames ([0x61] ++ [0x39]) ([0x61] ++ [0x31, 0x30]) = some (-1) :=
  (cmp_digit_runs_length [0x61] [0x39] [0x31, 0x30] (by decide) (by decide)
    (by decide) (by decide) (by decide)
    (singleton_last_nondigit (by decide)) (by decide) (by decide)).1 (by decide)

/-- Claim C10: the comparator is a function of the two `fts_name` fields
alone.  Entries agreeing on `fts_name` compare identically whatever
their other fields are, and in whatever ambient process environment
(locale) the comparison runs, because `cmp` passes a nil locale. -/
theorem cmp_name_only (env env₂ : ProcessEnv) (e₁ e₂ f₁ f₂ : FTSENT)
    (h₁ : e₁.fts_name = f₁.fts_name) (h₂ : e₂.fts_name = f₂.fts_name) :
    cmpInEnv env e₁ e₂ = cmpInEnv env₂ f₁ f₂ := by
  unfold cmpInEnv cmp
  rw [h₁, h₂]

theorem cmp_name_only_witness :
    cmpInEnv ⟨0⟩ ⟨[0x61], [0x2F, 0x61], 1, 0⟩ ⟨[0x62], [], 2, 1⟩ =
      cmpInEnv ⟨5⟩ ⟨[0x61], [0x74], 3, 7⟩ ⟨[0x62], [0x75], 4, 9⟩ :=
  cmp_name_only ⟨0⟩ ⟨5⟩ ⟨[0x61], [0x2F, 0x61], 1, 0⟩ ⟨[0x62], [], 2, 1⟩
    ⟨[0x61], [0x74], 3, 7⟩ ⟨[0x62], [0x75], 4, 9⟩ rfl rfl

end FinderItem
